import Mathlib

/-!
Verification development for the forever-jukebox analysis service.

The Python sources are shallowly embedded:

* `api/api/db.py` — the SQLite job store becomes a list of `Job` records;
  an ISO-8601 `created_at`/`updated_at` text timestamp is order-isomorphic
  to its chronological instant, so timestamps are modelled as `Nat`.
* `api/worker/worker.py` — progress mapping and metadata overlay.
* `api/api/routes/jobs.py` — the upload streaming loop.
* `engine/app/features.py` / `engine/app/analyzer.py` /
  `engine/app/analyzer_utils.py` — the DSP helpers named by the claims.

Python floats are modelled as exact rationals (`ℚ`) except where the code
takes square roots (`np.linalg.norm`), where reals (`ℝ`) are used.
`engine/app/constants.py` is not part of the provided sources; the epsilon
`EPS` it defines is kept as an explicit positive parameter `eps` wherever
it occurs, so every theorem holds for any positive value of it.
-/

/-- A row of the `jobs` table (`api/api/db.py`, dataclass `Job`). -/
structure Job where
  id : String
  status : String
  input_path : String
  output_path : String
  error : Option String
  track_title : Option String
  track_artist : Option String
  youtube_id : Option String
  progress : Int
  play_count : Int
  is_user_supplied : Int
  created_at : Nat
  updated_at : Nat
deriving Repr, DecidableEq

/-- The job store is the list of rows of the `jobs` table, in table order. -/
abbrev JobStore := List Job

/-- The row selected by `SELECT ... WHERE status = 'queued' ORDER BY created_at
LIMIT 1` in `claim_next_job` (`api/api/db.py`): the first row, in table order,
with minimal `created_at` among rows whose status is `queued`. -/
def selectEarliestQueued : JobStore → Option Job
  | [] => none
  | j :: rest =>
    let r := selectEarliestQueued rest
    if j.status = "queued" then
      match r with
      | none => some j
      | some k => if k.created_at < j.created_at then some k else some j
    else r

/-- The row update performed by `claim_next_job`:
`UPDATE jobs SET status = 'processing', progress = 0, updated_at = now WHERE id = ?`. -/
def claimUpdate (jid : String) (now : Nat) (r : Job) : Job :=
  if r.id = jid then { r with status := "processing", progress := 0, updated_at := now } else r

/-- `claim_next_job` (`api/api/db.py`, lines 147-165).  Selects the earliest
queued row; if none, commits and returns `None` with the store unchanged;
otherwise captures the row object *before* the update, updates that row to
`processing` with `progress = 0` and a fresh `updated_at`, commits, and
returns the captured (pre-update) row. -/
def claim_next_job (db : JobStore) (now : Nat) : Option Job × JobStore :=
  match selectEarliestQueued db with
  | none => (none, db)
  | some j => (some j, db.map (claimUpdate j.id now))

/-- The row update performed by `increment_job_plays`:
`UPDATE jobs SET play_count = play_count + 1, updated_at = now WHERE id = ?`. -/
def playsUpdate (jid : String) (now : Nat) (r : Job) : Job :=
  if r.id = jid then { r with play_count := r.play_count + 1, updated_at := now } else r

/-- `increment_job_plays` (`api/api/db.py`, lines 193-210).  Runs the
increment `UPDATE`; if no row matched (`cur.rowcount == 0`) it commits and
returns `None` with the store unchanged; otherwise it reads back the
`play_count` of the (first) row with the given id and commits. -/
def increment_job_plays (db : JobStore) (jid : String) (now : Nat) : Option Int × JobStore :=
  let matched := db.filter (fun r => r.id = jid)
  if matched.isEmpty then (none, db)
  else
    let db2 := db.map (playsUpdate jid now)
    match db2.find? (fun r => r.id = jid) with
    | none => (none, db2)
    | some r => (some r.play_count, db2)

/-! Worker (`api/worker/worker.py`). -/

/-- Python's `round` on a real value: round half to even (`worker.py` uses
`int(round(scaled))`). -/
def pyRound (q : ℚ) : Int :=
  if q - (⌊q⌋ : ℚ) < 1/2 then ⌊q⌋
  else if 1/2 < q - (⌊q⌋ : ℚ) then ⌊q⌋ + 1
  else if ⌊q⌋ % 2 = 0 then ⌊q⌋ else ⌊q⌋ + 1

/-- `ENGINE_PROGRESS_START` (`worker.py` line 25). -/
def ENGINE_PROGRESS_START : Int := 50

/-- `ENGINE_PROGRESS_WAIT` (`worker.py` line 26). -/
def ENGINE_PROGRESS_WAIT : Int := 75

/-- `ENGINE_PROGRESS_END` (`worker.py` line 27). -/
def ENGINE_PROGRESS_END : Int := 100

/-- `API_PROGRESS_START` (`worker.py` line 28): the first progress value the
worker writes for a claimed job. -/
def API_PROGRESS_START : Int := 26

/-- `API_PROGRESS_WAIT` (`worker.py` line 29). -/
def API_PROGRESS_WAIT : Int :=
  pyRound ((API_PROGRESS_START : ℚ)
    + ((ENGINE_PROGRESS_WAIT : ℚ) - (ENGINE_PROGRESS_START : ℚ)) * 74 / 50)

/-- `API_PROGRESS_END` (`worker.py` line 30). -/
def API_PROGRESS_END : Int := 100

/-- `map_engine_progress` (`worker.py`, lines 63-71): remaps an engine
progress value (50..100 scale) onto the job-store progress scale. -/
def map_engine_progress (value : Int) : Int :=
  if value ≤ ENGINE_PROGRESS_START then API_PROGRESS_START
  else if ENGINE_PROGRESS_END ≤ value then API_PROGRESS_END
  else
    pyRound ((API_PROGRESS_START : ℚ)
      + ((value : ℚ) - (ENGINE_PROGRESS_START : ℚ))
        * ((API_PROGRESS_END : ℚ) - (API_PROGRESS_START : ℚ))
        / ((ENGINE_PROGRESS_END : ℚ) - (ENGINE_PROGRESS_START : ℚ)))

/-- The `track` object of an artifact, restricted to the two fields
`apply_track_metadata` touches. -/
structure ArtTrack where
  title : Option String
  artist : Option String
deriving Repr, DecidableEq

/-- The artifact JSON document, restricted to its `track` member (`none`
models a document whose `track` key is missing or not an object). -/
structure ArtifactMeta where
  track : Option ArtTrack
deriving Repr, DecidableEq

/-- Python truthiness of an `Optional[str]` value. -/
def strTruthy : Option String → Bool
  | none => false
  | some s => s ≠ ""

/-- `apply_track_metadata` (`api/worker/worker.py`, lines 137-155), restricted
to its pure transformation of the parsed artifact document (the early returns
for a missing or unparsable file leave the artifact unchanged and are outside
this model).  If both stored values are falsy nothing happens; otherwise a
missing/non-dict `track` is replaced by an empty one and each truthy stored
value is assigned into it. -/
def apply_track_metadata (data : ArtifactMeta) (title artist : Option String) : ArtifactMeta :=
  if ¬ strTruthy title ∧ ¬ strTruthy artist then data
  else
    let tr0 := data.track.getD ⟨none, none⟩
    let tr1 := if strTruthy title then { tr0 with title := title } else tr0
    let tr2 := if strTruthy artist then { tr1 with artist := artist } else tr1
    { data with track := some tr2 }

/-! Upload route (`api/api/routes/jobs.py`). -/

/-- `MAX_UPLOAD_BYTES` (`api/api/routes/jobs.py` line 75). -/
def MAX_UPLOAD_BYTES : Nat := 15 * 1024 * 1024

/-- Observable outcome of the upload route: HTTP status, detail string,
whether the staged audio file remains, and whether a job row was created. -/
structure UploadOutcome where
  statusCode : Nat
  detail : Option String
  fileExists : Bool
  jobCreated : Bool
deriving Repr, DecidableEq

/-- The streaming loop of `upload_audio` (`jobs.py`, lines 445-455): chunks
are read until an empty chunk; the accumulated size is bumped before the
size check; crossing `MAX_UPLOAD_BYTES` aborts.  Returns the final
accumulated size, or `none` when the 413 abort fired. -/
def streamUpload : List Nat → Nat → Option Nat
  | [], total => some total
  | c :: rest, total =>
    if c = 0 then some total
    else
      let total2 := total + c
      if MAX_UPLOAD_BYTES < total2 then none
      else streamUpload rest total2

/-- `upload_audio` (`jobs.py`, lines 429-483) from the streaming phase on
(the extension and enable-flag guards precede it and reject before any byte
is written).  On an oversize abort the `except HTTPException` handler deletes
the partial file and re-raises 413 before `create_job` is reached; otherwise
the file stays and a `queued` row is created. -/
def upload_audio (chunks : List Nat) : UploadOutcome :=
  match streamUpload chunks 0 with
  | none => ⟨413, some "File too large", false, false⟩
  | some _ => ⟨202, none, true, true⟩

/-! Feature helpers over exact rationals (`engine/app/features.py`,
`engine/app/analyzer_utils.py`). -/

/-- `min(1.0, max(0.0, v))` as used throughout the pitch calibration. -/
def clamp01 (x : ℚ) : ℚ := min 1 (max 0 x)

/-- `np.max` of a rational array (meaningful for nonempty input; the callers
below only reach it on nonempty arrays, mirroring the `if vec.size` guards). -/
def listMax : List ℚ → ℚ
  | [] => 0
  | [x] => x
  | x :: y :: xs => max x (listMax (y :: xs))

/-- `normalize_vector` (`features.py`, lines 417-421): max-normalize a vector
to `[0, 1]`, sending everything to `0` when the maximum is not positive. -/
def normalize_vector (vec : List ℚ) : List ℚ :=
  let max_val := if vec.isEmpty then 0 else listMax vec
  if max_val ≤ 0 then vec.map (fun _ => 0)
  else vec.map (fun v => v / max_val)

/-- The renormalization shared by both calibration steps: divide by the
maximum (`max(...) if ... else 0.0`) whenever it is positive. -/
def renormalizeMax (l : List ℚ) : List ℚ :=
  let max_val := if l.isEmpty then 0 else listMax l
  if 0 < max_val then l.map (fun v => v / max_val) else l

/-- The `pitch_scale`/`pitch_bias` calibration step (`analyzer.py`, lines
470-483): per-index affine remap clamped to `[0,1]`, then renormalized so the
maximum is 1 whenever it is positive.  Skipped when the vector is not
12-dimensional (`if len(pitches) != 12: continue`). -/
def pitch_scale_bias_step (scale bias pitches : List ℚ) : List ℚ :=
  if pitches.length ≠ 12 then pitches
  else
    renormalizeMax ((pitches.zip (scale.zip bias)).map
      (fun p => clamp01 (p.1 * p.2.1 + p.2.2)))

/-- `vec @ matrix + bias` for a row vector and a matrix given as rows. -/
def matVecRight (vec : List ℚ) (matrix : List (List ℚ)) (bias : List ℚ) : List ℚ :=
  (List.range bias.length).map (fun j =>
    ((vec.zip matrix).map (fun p => p.1 * (p.2.getD j 0))).sum + bias.getD j 0)

/-- The `pitch_calibration_matrix`/`pitch_calibration_bias` step
(`analyzer.py`, lines 484-498): affine matrix remap, clipped to `[0,1]`,
renormalized so the maximum is 1 whenever it is positive. -/
def pitch_matrix_step (matrix : List (List ℚ)) (bias pitches : List ℚ) : List ℚ :=
  if pitches.length ≠ 12 then pitches
  else
    renormalizeMax ((matVecRight pitches matrix bias).map clamp01)

/-- The pitches of one segment after normalization and the configured
calibration steps, in the order `_compute_segments` applies them:
`normalize_vector` on the mean chroma, then the optional scale/bias step,
then the optional matrix step. -/
def segment_pitches (chroma : List ℚ)
    (scaleBias : Option (List ℚ × List ℚ))
    (matrixBias : Option (List (List ℚ) × List ℚ)) : List ℚ :=
  let p0 := normalize_vector chroma
  let p1 := match scaleBias with
    | some sb => pitch_scale_bias_step sb.1 sb.2 p0
    | none => p0
  match matrixBias with
  | some mb => pitch_matrix_step mb.1 mb.2 p1
  | none => p1

/-- Body of the merge loop of `enforce_min_duration`: `last` is the last kept
time, and a time is kept exactly when it is at least `min_duration` after it. -/
def emdGo (last min_duration : ℚ) : List ℚ → List ℚ
  | [] => []
  | t :: rest =>
    if min_duration ≤ t - last then t :: emdGo t min_duration rest
    else emdGo last min_duration rest

/-- `enforce_min_duration` (`features.py`, lines 218-225): keep the first
time, then greedily keep each later time whose distance to the last kept time
is at least `min_duration`.  Arrays of fewer than two elements are returned
unchanged. -/
def enforce_min_duration (times : List ℚ) (min_duration : ℚ) : List ℚ :=
  if times.length < 2 then times
  else
    match times with
    | [] => times
    | t0 :: rest => t0 :: emdGo t0 min_duration rest

/-- An event of the artifact, restricted to the fields every list carries. -/
structure Event where
  start : ℚ
  duration : ℚ
  confidence : ℚ
deriving Repr, DecidableEq

/-- `_events_from_times` (`analyzer_utils.py`, lines 88-101): event `idx`
spans from `times[idx]` to the following time (the track duration for the
last index) and is dropped when that span is not positive. -/
def _events_from_times (times confs : List ℚ) (duration : ℚ) : List Event :=
  (List.range times.length).filterMap (fun idx =>
    if (if idx + 1 < times.length then times.getD (idx + 1) 0 else duration)
        ≤ times.getD idx 0 then none
    else some ⟨times.getD idx 0,
      (if idx + 1 < times.length then times.getD (idx + 1) 0 else duration)
        - times.getD idx 0,
      confs.getD idx 0⟩)

/-- The in-place mutation `_fix_event_end` performs on the last event
(`analyzer_utils.py`, lines 104-113): clamp a negative start to 0 and set the
duration to `max (0, duration - start)`. -/
def fixLastEvent (e : Event) (duration : ℚ) : Event :=
  let s := if e.start < 0 then 0 else e.start
  { e with start := s, duration := max 0 (duration - s) }

/-- `_fix_event_end` (`analyzer_utils.py`, lines 104-113) as a function:
every event except the last is untouched. -/
def _fix_event_end : List Event → ℚ → List Event
  | [], _ => []
  | [e], duration => [fixLastEvent e duration]
  | e :: e2 :: rest, duration => e :: _fix_event_end (e2 :: rest) duration

/-- `np.argmin(np.abs(peak_times - t))` resolved to the peak value: the first
(lowest-index) peak minimizing the absolute distance to `t`. -/
def nearestFirst (t : ℚ) : List ℚ → Option ℚ
  | [] => none
  | [p] => some p
  | p :: q :: rest =>
    match nearestFirst t (q :: rest) with
    | none => some p
    | some r => if |r - t| < |p - t| then some r else some p

/-- One iteration of the loop of `snap_times_to_peaks`: snap `t` to its
nearest peak when that peak is within `window_s`, else keep `t`. -/
def snapOne (peaks : List ℚ) (window_s t : ℚ) : ℚ :=
  match nearestFirst t peaks with
  | none => t
  | some p => if |p - t| ≤ window_s then p else t

/-- `snap_times_to_peaks` (`features.py`, lines 201-215). -/
def snap_times_to_peaks (times peaks : List ℚ) (window_s : ℚ) : List ℚ :=
  if times.isEmpty ∨ peaks.isEmpty then times
  else times.map (snapOne peaks window_s)

/-- Interior search of `np.interp`: `(x0, y0)` is the last passed grid point. -/
def interpGo (x : ℚ) : ℚ → ℚ → List ℚ → List ℚ → ℚ
  | x0, y0, x1 :: xrest, y1 :: yrest =>
    if x ≤ x1 then y0 + (y1 - y0) * (x - x0) / (x1 - x0)
    else interpGo x x1 y1 xrest yrest
  | _, y0, _, _ => y0

/-- `np.interp x xp fp` for an increasing grid `xp`: clamp to the end values
outside the grid, piecewise-linear inside. -/
def np_interp (x : ℚ) (xp fp : List ℚ) : ℚ :=
  match xp, fp with
  | x0 :: xrest, y0 :: yrest =>
    if x ≤ x0 then y0 else interpGo x x0 y0 xrest yrest
  | _, _ => 0

/-- The optional start-offset time warp of `_compute_segments`
(`analyzer.py`, lines 504-512): when a source/destination map of matching
length at least 2 is configured and the duration is positive, each segment
start is shifted by the interpolated offset at its normalized position and
clamped into `[0, duration]`.  An absent calibration is the empty map. -/
def applyStartOffsetMap (src dst : List ℚ) (duration : ℚ) (segs : List Event) : List Event :=
  if 2 ≤ src.length ∧ src.length = dst.length ∧ 0 < duration then
    segs.map (fun e =>
      let norm := min 1 (max 0 (e.start / duration))
      let offset := np_interp norm src dst
      { e with start := min duration (max 0 (e.start + offset)) })
  else segs

/-! Novelty curves (`features.py` `novelty_from_ssm`, and the combined
novelty block of `analyzer.py` `_compute_feature_bundle`).  These involve
`np.linalg.norm`, i.e. real square roots, so they are modelled over `ℝ`. -/

/-- `np.max` of a real array (meaningful for nonempty input). -/
noncomputable def listMaxR : List ℝ → ℝ
  | [] => 0
  | [x] => x
  | x :: y :: xs => max x (listMaxR (y :: xs))

/-- `np.min` of a real array (meaningful for nonempty input). -/
noncomputable def listMinR : List ℝ → ℝ
  | [] => 0
  | [x] => x
  | x :: y :: xs => min x (listMinR (y :: xs))

/-- Sum of one rectangular block `ssm[r0:r1, c0:c1]` of a matrix. -/
noncomputable def blockSum (ssm : ℕ → ℕ → ℝ) (r0 r1 c0 c1 : ℕ) : ℝ :=
  ∑ i ∈ Finset.Ico r0 r1, ∑ j ∈ Finset.Ico c0 c1, ssm i j

/-- The raw checkerboard score at index `idx` in `novelty_from_ssm`: the two
diagonal blocks minus the two off-diagonal blocks, and 0 outside the loop
range `range(k, size - k)`. -/
noncomputable def noveltyRaw (n k : ℕ) (ssm : ℕ → ℕ → ℝ) (idx : ℕ) : ℝ :=
  if k ≤ idx ∧ idx + k < n then
    blockSum ssm (idx - k) idx (idx - k) idx
      + blockSum ssm idx (idx + k) idx (idx + k)
      - blockSum ssm (idx - k) idx idx (idx + k)
      - blockSum ssm idx (idx + k) (idx - k) idx
  else 0

/-- `novelty_from_ssm` (`features.py`, lines 519-537) over an `n × n` matrix
`ssm`: checkerboard-kernel scores with `k = min kernel (n / 2)`, then shifted
by the minimum and divided by `max + eps`. -/
noncomputable def novelty_from_ssm (n : ℕ) (ssm : ℕ → ℕ → ℝ) (kernel : ℕ) (eps : ℝ) : List ℝ :=
  if n = 0 ∨ kernel < 1 then []
  else
    let k := min kernel (n / 2)
    if k < 1 then List.replicate n 0
    else
      let novelty := (List.range n).map (noveltyRaw n k ssm)
      let mn := listMinR novelty
      let shifted := novelty.map (fun v => v - mn)
      let mx := listMaxR shifted
      shifted.map (fun v => v / (mx + eps))

/-- Sum of squares of a vector. -/
noncomputable def sumSq (v : List ℝ) : ℝ := (v.map (fun x => x ^ 2)).sum

/-- `np.linalg.norm` of a vector: the square root of the sum of squares. -/
noncomputable def l2norm (v : List ℝ) : ℝ := Real.sqrt (sumSq v)

/-- `np.dot` of two vectors (numpy truncates to the common length only for
equal-length inputs; all call sites here pass equal-length frames). -/
noncomputable def dotList (u v : List ℝ) : ℝ := (List.zipWith (· * ·) u v).sum

/-- The frame-MFCC novelty loop of `_compute_feature_bundle` (`analyzer.py`,
lines 210-215): index 0 is 0, index `i ≥ 1` is one minus the cosine
similarity of frames `i-1` and `i` (with `eps` guarding the denominator).
`frames` lists the columns of `full_mfcc_seg`. -/
noncomputable def mfccNovelty (frames : List (List ℝ)) (eps : ℝ) : List ℝ :=
  (List.range frames.length).map (fun i =>
    if i = 0 then 0
    else
      let prev := frames.getD (i - 1) []
      let curr := frames.getD i []
      1 - dotList prev curr / (l2norm prev * l2norm curr + eps))

/-- The `x / (np.max x + eps)` normalization applied to both curves in
`_compute_feature_bundle` (`analyzer.py`, lines 220-223), a no-op on empty
input per the `if ... .size` guards. -/
noncomputable def maxNormalize (l : List ℝ) (eps : ℝ) : List ℝ :=
  if l.isEmpty then l else l.map (fun v => v / (listMaxR l + eps))

/-- Element lookup at a (possibly negative) integer index, 0 outside. -/
noncomputable def getZ (l : List ℝ) (z : ℤ) : ℝ :=
  if z < 0 then 0 else l.getD z.toNat 0

/-- `np.convolve(a, np.ones(w)/w, mode="same")` for `w ≥ 1` and
`len a ≥ w` (the configured smoothing widths are small relative to the
curve): entry `i` averages the `w` entries of a window centred at `i`
(shifted left for even `w`), treating out-of-range entries as 0. -/
noncomputable def convSameAvg (l : List ℝ) (w : ℕ) : List ℝ :=
  (List.range l.length).map (fun i =>
    (∑ t ∈ Finset.range w, getZ l ((i : ℤ) + ((w - 1) / 2 : ℕ) - t)) / w)

/-- The combined novelty curve of `_compute_feature_bundle` (`analyzer.py`,
lines 210-227): truncate the frame-MFCC novelty and the onset envelope to
their common length, max-normalize each, add them element-wise, and smooth
with a width-`smooth` box filter when `smooth > 1`. -/
noncomputable def combined_novelty (frames : List (List ℝ)) (onset : List ℝ)
    (eps : ℝ) (smooth : ℕ) : List ℝ :=
  let novelty := mfccNovelty frames eps
  let minLen := min novelty.length onset.length
  let noveltyNorm := maxNormalize (novelty.take minLen) eps
  let onsetNorm := maxNormalize (onset.take minLen) eps
  let combined := List.zipWith (· + ·) noveltyNorm onsetNorm
  if 1 < smooth then convSameAvg combined smooth else combined

/-- Modelled from the spec: the combined novelty as §4.5 S3 words it — the
"element-wise average of frame MFCC novelty (`1 − cos(prev, curr)`) with the
normalized onset envelope", smoothed with the configured box filter.  The
raw (un-normalized) MFCC novelty is averaged with the max-normalized onset
envelope.  This definition exists to be compared with `combined_novelty`,
the embedding of the code. -/
noncomputable def combined_novelty_specd (frames : List (List ℝ)) (onset : List ℝ)
    (eps : ℝ) (smooth : ℕ) : List ℝ :=
  let novelty := mfccNovelty frames eps
  let minLen := min novelty.length onset.length
  let onsetNorm := maxNormalize (onset.take minLen) eps
  let combined := List.zipWith (fun a b => (a + b) / 2) (novelty.take minLen) onsetNorm
  if 1 < smooth then convSameAvg combined smooth else combined

/-- The combined novelty as the amended claim words it: the element-wise
*sum* of the *max-normalized* frame MFCC novelty and the max-normalized
onset envelope over their common length, box-smoothed when the configured
width exceeds 1. -/
noncomputable def combined_novelty_amended (frames : List (List ℝ)) (onset : List ℝ)
    (eps : ℝ) (smooth : ℕ) : List ℝ :=
  let minLen := min (mfccNovelty frames eps).length onset.length
  let curves := List.zipWith (· + ·)
    (maxNormalize ((mfccNovelty frames eps).take minLen) eps)
    (maxNormalize (onset.take minLen) eps)
  if 1 < smooth then convSameAvg curves smooth else curves

/-! Concrete records used by counterexamples and witnesses. -/

/-- A queued job row. -/
def jobA : Job :=
  { id := "a1", status := "queued", input_path := "audio/a1.mp3",
    output_path := "analysis/a1.json", error := none, track_title := none,
    track_artist := none, youtube_id := none, progress := 25, play_count := 3,
    is_user_supplied := 0, created_at := 100, updated_at := 100 }

/-- An earlier queued job row. -/
def jobB : Job := { jobA with id := "b2", created_at := 50, updated_at := 50 }

/-- A completed job row. -/
def jobC : Job := { jobA with id := "c3", status := "complete", created_at := 10 }

/-! Theorems.  Lemmas about the job-store selection come first. -/

theorem selectEarliestQueued_mem {db : JobStore} {j : Job}
    (h : selectEarliestQueued db = some j) : j ∈ db ∧ j.status = "queued" := by
  induction db with
  | nil => simp [selectEarliestQueued] at h
  | cons a rest ih =>
    by_cases ha : a.status = "queued"
    · cases hr : selectEarliestQueued rest with
      | none =>
        simp [selectEarliestQueued, ha, hr] at h
        subst h; exact ⟨List.mem_cons_self _ _, ha⟩
      | some k =>
        simp only [selectEarliestQueued, ha, if_true, hr] at h
        split at h
        · cases h
          rcases ih hr with ⟨hk, hq⟩
          exact ⟨List.mem_cons_of_mem _ hk, hq⟩
        · cases h; exact ⟨List.mem_cons_self _ _, ha⟩
    · simp only [selectEarliestQueued, ha, if_false] at h
      rcases ih h with ⟨hk, hq⟩
      exact ⟨List.mem_cons_of_mem _ hk, hq⟩

theorem selectEarliestQueued_ne_none {db : JobStore} {k : Job}
    (hk : k ∈ db) (hq : k.status = "queued") : selectEarliestQueued db ≠ none := by
  induction db with
  | nil => cases hk
  | cons a rest ih =>
    by_cases ha : a.status = "queued"
    · simp only [selectEarliestQueued, ha, if_true]
      cases hr : selectEarliestQueued rest with
      | none => simp
      | some m => by_cases hm : m.created_at < a.created_at <;> simp [hm]
    · rcases List.mem_cons.mp hk with rfl | hmem
      · exact absurd hq ha
      · simp only [selectEarliestQueued, ha, if_false]
        exact ih hmem

theorem selectEarliestQueued_min {db : JobStore} {j : Job}
    (h : selectEarliestQueued db = some j) :
    ∀ k ∈ db, k.status = "queued" → j.created_at ≤ k.created_at := by
  induction db generalizing j with
  | nil => simp [selectEarliestQueued] at h
  | cons a rest ih =>
    intro k hk hkq
    by_cases ha : a.status = "queued"
    · cases hr : selectEarliestQueued rest with
      | none =>
        simp only [selectEarliestQueued, ha, if_true, hr] at h
        cases h
        rcases List.mem_cons.mp hk with rfl | hmem
        · exact le_refl _
        · exact absurd hr (selectEarliestQueued_ne_none hmem hkq)
      | some m =>
        simp only [selectEarliestQueued, ha, if_true, hr] at h
        split at h
        · cases h
          rcases List.mem_cons.mp hk with rfl | hmem
          · exact le_of_lt (by assumption)
          · exact ih hr k hmem hkq
        · cases h
          rcases List.mem_cons.mp hk with rfl | hmem
          · exact le_refl _
          · exact le_trans (le_of_not_lt (by assumption)) (ih hr k hmem hkq)
    · simp only [selectEarliestQueued, ha, if_false] at h
      rcases List.mem_cons.mp hk with rfl | hmem
      · exact absurd hkq ha
      · exact ih h k hmem hkq

theorem selectEarliestQueued_none {db : JobStore}
    (h : ∀ j ∈ db, j.status ≠ "queued") : selectEarliestQueued db = none := by
  induction db with
  | nil => rfl
  | cons a rest ih =>
    have ha : a.status ≠ "queued" := h a (List.mem_cons_self _ _)
    simp only [selectEarliestQueued, ha, if_false]
    exact ih (fun j hj => h j (List.mem_cons_of_mem _ hj))

/-- Claim C1 (amended): `claim_next_job` selects the job with the smallest
`created_at` among rows whose status is `queued` (returning nothing, with the
store unchanged, when no such row exists), updates that row to status
`processing` with `progress = 0` and a fresh `updated_at`, commits, and
returns the claimed job record *as it was read before the update* (its status
field still says `queued`). -/
theorem C1_claim_next_amended (db : JobStore) (now : Nat) :
    ((∀ j ∈ db, j.status ≠ "queued") → claim_next_job db now = (none, db)) ∧
    (∀ j : Job, (claim_next_job db now).1 = some j →
      j ∈ db ∧ j.status = "queued" ∧
      (∀ k ∈ db, k.status = "queued" → j.created_at ≤ k.created_at) ∧
      (claim_next_job db now).2 = db.map (claimUpdate j.id now)) := by
  constructor
  · intro h
    simp [claim_next_job, selectEarliestQueued_none h]
  · intro j hj
    cases hs : selectEarliestQueued db with
    | none => simp [claim_next_job, hs] at hj
    | some k =>
      simp only [claim_next_job, hs] at hj ⊢
      cases hj
      obtain ⟨hm, hq⟩ := selectEarliestQueued_mem hs
      exact ⟨hm, hq, selectEarliestQueued_min hs, rfl⟩

/-- Claim C1, counterexample to the claim as stated: on a store holding one
queued row, `claim_next_job` does update the row to `processing`, but the
record it returns is the pre-update snapshot — its status is still `queued`,
so the claimed job record is *not* returned "as updated". -/
theorem C1_claim_next_counterexample :
    (claim_next_job [jobA] 200).2 =
      [{ jobA with status := "processing", progress := 0, updated_at := 200 }] ∧
    (claim_next_job [jobA] 200).1 = some jobA ∧
    (claim_next_job [jobA] 200).1 ≠
      some { jobA with status := "processing", progress := 0, updated_at := 200 } ∧
    jobA.status = "queued" := by decide

/-- Claim C1, witness: `C1_claim_next_amended` applied to concrete stores —
one with no queued row, and one where `jobB` (created at 50) beats `jobA`
(created at 100). -/
theorem C1_claim_next_witness :
    claim_next_job [jobC] 300 = (none, [jobC]) ∧
    jobB ∈ [jobC, jobA, jobB] ∧ jobB.status = "queued" ∧
    (∀ k ∈ [jobC, jobA, jobB], k.status = "queued" → jobB.created_at ≤ k.created_at) ∧
    (claim_next_job [jobC, jobA, jobB] 300).2 =
      [jobC, jobA, jobB].map (claimUpdate jobB.id 300) := by
  refine ⟨(C1_claim_next_amended [jobC] 300).1 (by decide), ?_⟩
  exact (C1_claim_next_amended [jobC, jobA, jobB] 300).2 jobB (by decide)

theorem playsUpdate_id (jid : String) (now : Nat) (r : Job) :
    (playsUpdate jid now r).id = r.id := by
  unfold playsUpdate; split <;> rfl

theorem find_unique_id {db : JobStore} {j : Job} {jid : String}
    (hnd : (db.map Job.id).Nodup) (hj : j ∈ db) (hid : j.id = jid) :
    db.find? (fun r => r.id = jid) = some j := by
  induction db with
  | nil => cases hj
  | cons a rest ih =>
    simp only [List.map_cons, List.nodup_cons] at hnd
    rcases List.mem_cons.mp hj with rfl | hmem
    · rw [List.find?_cons_of_pos _ (by simp [hid])]
    · rw [List.find?_cons_of_neg _ (by
        simp only [decide_eq_true_eq]
        intro he
        exact hnd.1 (he ▸ hid ▸ List.mem_map_of_mem Job.id hmem))]
      exact ih hnd.2 hmem

/-- Claim C9: `increment_job_plays` is a read-modify-write returning the
job's new play count; when no row with the given id exists it still commits
and returns `None` with the store unchanged; when the row exists (ids are
unique — `id` is the primary key) it bumps `play_count`, refreshes
`updated_at` and returns the new count. -/
theorem C9_increment_plays (db : JobStore) (jid : String) (now : Nat) :
    ((∀ r ∈ db, r.id ≠ jid) → increment_job_plays db jid now = (none, db)) ∧
    (∀ j ∈ db, j.id = jid → (db.map Job.id).Nodup →
      (increment_job_plays db jid now).1 = some (j.play_count + 1) ∧
      (increment_job_plays db jid now).2 = db.map (playsUpdate jid now)) := by
  constructor
  · intro h
    have hfil : db.filter (fun r => r.id = jid) = [] := by
      rw [List.filter_eq_nil_iff]
      intro a ha
      simp only [decide_eq_true_eq]
      exact h a ha
    simp [increment_job_plays, hfil]
  · intro j hj hid hnd
    have hmemf : j ∈ db.filter (fun r => r.id = jid) :=
      List.mem_filter.mpr ⟨hj, by simp [hid]⟩
    have hfil : (db.filter (fun r => r.id = jid)).isEmpty = false := by
      cases hf : db.filter (fun r => r.id = jid) with
      | nil => rw [hf] at hmemf; cases hmemf
      | cons b l => rfl
    have hnd2 : ((db.map (playsUpdate jid now)).map Job.id).Nodup := by
      rw [List.map_map]
      have : (Job.id ∘ playsUpdate jid now) = Job.id := by
        funext r; exact playsUpdate_id jid now r
      rw [this]; exact hnd
    have hfind : (db.map (playsUpdate jid now)).find? (fun r => r.id = jid)
        = some (playsUpdate jid now j) :=
      find_unique_id hnd2 (List.mem_map_of_mem _ hj) (by rw [playsUpdate_id]; exact hid)
    have hpj : (playsUpdate jid now j).play_count = j.play_count + 1 := by
      unfold playsUpdate
      rw [if_pos hid]
    constructor <;> simp [increment_job_plays, hfil, hfind, hpj]

/-- Claim C9, witness: `C9_increment_plays` applied to a concrete store —
a missing id commits and returns `None` leaving the store unchanged, and a
present id returns the bumped count. -/
theorem C9_increment_plays_witness :
    increment_job_plays [jobC, jobA] "zz" 400 = (none, [jobC, jobA]) ∧
    (increment_job_plays [jobC, jobA] "a1" 400).1 = some (jobA.play_count + 1) ∧
    (increment_job_plays [jobC, jobA] "a1" 400).2 = [jobC, jobA].map (playsUpdate "a1" 400) := by
  refine ⟨(C9_increment_plays [jobC, jobA] "zz" 400).1 (by decide), ?_⟩
  exact (C9_increment_plays [jobC, jobA] "a1" 400).2 jobA (by decide) (by decide) (by decide)

/-- Claim C4 (amended): when the Worker applies the job's stored title/artist
to the artifact, a non-empty stored value *overwrites* the artifact's track
field unconditionally; the artifact's own value survives only where the
job's stored value is empty or missing. -/
theorem C4_apply_track_metadata_amended (data : ArtifactMeta) (title artist : Option String) :
    (strTruthy title = true →
      ((apply_track_metadata data title artist).track.getD ⟨none, none⟩).title = title) ∧
    (strTruthy title = false →
      ((apply_track_metadata data title artist).track.getD ⟨none, none⟩).title
        = (data.track.getD ⟨none, none⟩).title) ∧
    (strTruthy artist = true →
      ((apply_track_metadata data title artist).track.getD ⟨none, none⟩).artist = artist) ∧
    (strTruthy artist = false →
      ((apply_track_metadata data title artist).track.getD ⟨none, none⟩).artist
        = (data.track.getD ⟨none, none⟩).artist) := by
  cases ht : strTruthy title <;> cases ha : strTruthy artist <;>
    simp [apply_track_metadata, ht, ha]

/-- Claim C4, counterexample to the claim as stated: the artifact's track
already has a title, the job stores a different one, and the job's value
replaces it — the value already present is *not* left unchanged. -/
theorem C4_apply_track_metadata_counterexample :
    apply_track_metadata ⟨some ⟨some "Artifact Title", some "Artifact Artist"⟩⟩
        (some "Job Title") none
      = ⟨some ⟨some "Job Title", some "Artifact Artist"⟩⟩ ∧
    (some "Job Title" : Option String) ≠ some "Artifact Title" := by decide

/-- Claim C4, witness: `C4_apply_track_metadata_amended` at a concrete
artifact, non-empty stored title, and empty stored artist. -/
theorem C4_apply_track_metadata_witness :
    ((apply_track_metadata ⟨some ⟨some "A", some "B"⟩⟩ (some "T") (some "")).track.getD
      ⟨none, none⟩).title = some "T" ∧
    ((apply_track_metadata ⟨some ⟨some "A", some "B"⟩⟩ (some "T") (some "")).track.getD
      ⟨none, none⟩).artist = some "B" := by
  have h := C4_apply_track_metadata_amended ⟨some ⟨some "A", some "B"⟩⟩ (some "T") (some "")
  exact ⟨h.1 (by decide), h.2.2.2 (by decide)⟩

theorem pyRound_bounds (q : ℚ) : ⌊q⌋ ≤ pyRound q ∧ pyRound q ≤ ⌊q⌋ + 1 := by
  unfold pyRound
  split_ifs <;> omega

theorem pyRound_range {q : ℚ} (hlo : (27 : ℚ) ≤ q) (hhi : q < 99) :
    (26 : Int) ≤ pyRound q ∧ pyRound q ≤ 100 := by
  have hb := pyRound_bounds q
  have hfl : (27 : Int) ≤ ⌊q⌋ := Int.le_floor.mpr (by exact_mod_cast hlo)
  have hfh : ⌊q⌋ < 99 := Int.floor_lt.mpr (by exact_mod_cast hhi)
  omega

/-- Claim C5 (amended): every progress value the worker writes through
`map_engine_progress` lies between `API_PROGRESS_START = 26` and
`API_PROGRESS_END = 100`; the processing phase streams progress 26→100 (the
engine's 50→100 scale is remapped onto 26→100), not 50→100. -/
theorem C5_progress_range_amended (v : Int) :
    API_PROGRESS_START = 26 ∧ API_PROGRESS_END = 100 ∧
    API_PROGRESS_START ≤ map_engine_progress v ∧
    map_engine_progress v ≤ API_PROGRESS_END := by
  refine ⟨rfl, rfl, ?_⟩
  unfold map_engine_progress
  split_ifs with h1 h2
  · simp [API_PROGRESS_START, API_PROGRESS_END]
  · simp [API_PROGRESS_START, API_PROGRESS_END]
  · simp only [API_PROGRESS_START, API_PROGRESS_END, ENGINE_PROGRESS_START,
      ENGINE_PROGRESS_END] at h1 h2 ⊢
    have hv1 : (51 : ℚ) ≤ (v : ℚ) := by exact_mod_cast (by omega : (51 : Int) ≤ v)
    have hv2 : (v : ℚ) ≤ 99 := by exact_mod_cast (by omega : v ≤ (99 : Int))
    exact pyRound_range (by push_cast; nlinarith) (by push_cast; nlinarith)

/-- Claim C5, counterexample to the claim as stated: the worker's very first
write for a claimed job is `API_PROGRESS_START = 26`, and engine progress 60
is written as 41 — both below 50, so the progress values written during
processing do not range from 50 up to 100. -/
theorem C5_progress_counterexample :
    API_PROGRESS_START = 26 ∧ map_engine_progress 60 = 41 ∧
    ¬((50 : Int) ≤ 26) ∧ ¬((50 : Int) ≤ 41) := by
  refine ⟨rfl, ?_, by norm_num, by norm_num⟩
  have harg : ((26 : Int) : ℚ) + (((60 : Int) : ℚ) - ((50 : Int) : ℚ))
      * (((100 : Int) : ℚ) - ((26 : Int) : ℚ)) / (((100 : Int) : ℚ) - ((50 : Int) : ℚ))
      = 204 / 5 := by push_cast; ring
  have hfloor : ⌊(204 / 5 : ℚ)⌋ = 40 := by norm_num [Int.floor_eq_iff]
  simp only [map_engine_progress, API_PROGRESS_START, API_PROGRESS_END,
    ENGINE_PROGRESS_START, ENGINE_PROGRESS_END]
  norm_num [harg, pyRound, hfloor]

theorem streamUpload_overflow (chunks : List Nat) (k : Nat) :
    ∀ t, t ≤ MAX_UPLOAD_BYTES → k ≤ chunks.length →
    (∀ c ∈ chunks.take k, c ≠ 0) →
    MAX_UPLOAD_BYTES < t + (chunks.take k).sum →
    streamUpload chunks t = none := by
  induction chunks generalizing k with
  | nil =>
    intro t ht hk _ hsum
    simp only [List.take_nil, List.sum_nil, Nat.add_zero] at hsum
    omega
  | cons c rest ih =>
    intro t ht hk hnz hsum
    cases k with
    | zero =>
      simp only [List.take_zero, List.sum_nil, Nat.add_zero] at hsum
      omega
    | succ k' =>
      have hc : c ≠ 0 := hnz c (by simp)
      simp only [streamUpload, hc, if_false]
      by_cases hover : MAX_UPLOAD_BYTES < t + c
      · simp [hover]
      · have hle : t + c ≤ MAX_UPLOAD_BYTES := le_of_not_lt hover
        simp only [hover, if_false]
        refine ih k' (t + c) hle (by simpa using hk)
          (fun x hx => hnz x (by simp [hx])) ?_
        simp only [List.take_succ_cons, List.sum_cons] at hsum
        omega

/-- Claim C8: if, while streaming an upload, the accumulated byte count
crosses `MAX_UPLOAD_BYTES` (15 MiB) — i.e. some prefix of non-empty chunks
sums past the ceiling — the request fails with HTTP 413 "File too large",
the partially written audio file is deleted, and no job row is created. -/
theorem C8_upload_size_gate (chunks : List Nat) (k : Nat)
    (hk : k ≤ chunks.length)
    (hnz : ∀ c ∈ chunks.take k, c ≠ 0)
    (hsum : MAX_UPLOAD_BYTES < (chunks.take k).sum) :
    upload_audio chunks = ⟨413, some "File too large", false, false⟩ := by
  unfold upload_audio
  rw [streamUpload_overflow chunks k 0 (Nat.zero_le _) hk hnz (by simpa using hsum)]

/-- Claim C8, witness: `C8_upload_size_gate` on a 20 MiB body streamed in
1 MiB chunks — the sixteenth chunk crosses the 15 MiB ceiling. -/
theorem C8_upload_size_gate_witness :
    upload_audio (List.replicate 20 (1024 * 1024))
      = ⟨413, some "File too large", false, false⟩ :=
  C8_upload_size_gate (List.replicate 20 (1024 * 1024)) 16
    (by decide) (by decide) (by decide)

theorem emdGo_chain (d : ℚ) (l : List ℚ) :
    ∀ last, (∀ x ∈ l, last < x) → List.Sorted (· < ·) l →
    List.Chain (fun a b => d ≤ b - a ∧ a < b) last (emdGo last d l) := by
  induction l with
  | nil => intro last _ _; exact List.Chain.nil
  | cons t rest ih =>
    intro last hl hs
    have hrest : List.Sorted (· < ·) rest := hs.of_cons
    have htlt : ∀ x ∈ rest, t < x := (List.sorted_cons.mp hs).1
    by_cases hc : d ≤ t - last
    · simp only [emdGo, hc, if_true]
      exact List.Chain.cons ⟨hc, hl t (by simp)⟩ (ih t htlt hrest)
    · simp only [emdGo, hc, if_false]
      exact ih last (fun x hx => lt_trans (hl t (by simp)) (htlt x hx)) hrest

/-- Claim C10: on an ascending (strictly increasing) array of boundary times
and any `min_duration`, `enforce_min_duration` keeps the first time
unchanged and returns a strictly increasing array whose consecutive times
differ by at least `min_duration`; in particular the trailing boundary at
the track duration may be dropped when it lies within `min_duration` of its
predecessor (concretely: on `[0, 9.98, 10]` with `min_duration = 0.05` the
trailing `10` is dropped), so the last kept boundary need not equal the
track duration. -/
theorem C10_enforce_min_duration (times : List ℚ) (d : ℚ)
    (hs : List.Sorted (· < ·) times) :
    (enforce_min_duration times d).head? = times.head? ∧
    List.Sorted (· < ·) (enforce_min_duration times d) ∧
    List.Chain' (fun a b => d ≤ b - a) (enforce_min_duration times d) ∧
    (enforce_min_duration [0, 499/50, 10] (1/20)).getLast? = some (499/50) ∧
    (499/50 : ℚ) ≠ 10 := by
  have hdemo : enforce_min_duration [0, 499/50, 10] (1/20) = [0, 499/50] := by
    simp [enforce_min_duration, emdGo]
    norm_num
  by_cases hlen : times.length < 2
  · refine ⟨by simp [enforce_min_duration, hlen], by simpa [enforce_min_duration, hlen] using hs,
      ?_, by rw [hdemo]; rfl, by norm_num⟩
    have : enforce_min_duration times d = times := by simp [enforce_min_duration, hlen]
    rw [this]
    match times, hlen with
    | [], _ => exact trivial
    | [x], _ => simp
    | x :: y :: l, h => exact absurd h (by simp)
  · cases times with
    | nil => simp at hlen
    | cons t0 rest =>
      have hres : enforce_min_duration (t0 :: rest) d = t0 :: emdGo t0 d rest := by
        unfold enforce_min_duration
        rw [if_neg hlen]
      have hchain := emdGo_chain d rest t0 ((List.sorted_cons.mp hs).1) hs.of_cons
      refine ⟨by rw [hres]; rfl, ?_, ?_, by rw [hdemo]; rfl, by norm_num⟩
      · rw [hres, List.Sorted, ← List.chain_iff_pairwise]
        exact hchain.imp (fun a b h => h.2)
      · rw [hres]
        exact hchain.imp (fun a b h => h.1)

/-- Claim C10, witness: `C10_enforce_min_duration` applied to the ascending
array `[0, 1, 3/2, 4]` with `min_duration = 1` (the `3/2` boundary is
dropped, the first time survives, and consecutive gaps are at least 1). -/
theorem C10_enforce_min_duration_witness :
    (enforce_min_duration [0, 1, 3/2, 4] 1).head? = some 0 ∧
    List.Sorted (· < ·) (enforce_min_duration [0, 1, 3/2, 4] 1) ∧
    List.Chain' (fun a b => (1 : ℚ) ≤ b - a) (enforce_min_duration [0, 1, 3/2, 4] 1) := by
  have h := C10_enforce_min_duration [0, 1, 3/2, 4] 1 (by norm_num)
  exact ⟨h.1, h.2.1, h.2.2.1⟩

theorem le_listMax {l : List ℚ} {x : ℚ} (hx : x ∈ l) : x ≤ listMax l := by
  induction l with
  | nil => cases hx
  | cons a t ih =>
    cases t with
    | nil =>
      simp only [List.mem_singleton] at hx
      simp [listMax, hx]
    | cons b t2 =>
      simp only [listMax]
      rcases List.mem_cons.mp hx with rfl | hmem
      · exact le_max_left _ _
      · exact le_trans (ih hmem) (le_max_right _ _)

theorem listMax_mem {l : List ℚ} (hne : l ≠ []) : listMax l ∈ l := by
  induction l with
  | nil => exact absurd rfl hne
  | cons a t ih =>
    cases t with
    | nil => simp [listMax]
    | cons b t2 =>
      simp only [listMax]
      rcases le_total a (listMax (b :: t2)) with h | h
      · rw [max_eq_right h]
        exact List.mem_cons_of_mem _ (ih (by simp))
      · rw [max_eq_left h]
        exact List.mem_cons_self _ _

theorem listMax_map_div (l : List ℚ) (c : ℚ) (hc : 0 < c) :
    listMax (l.map (fun v => v / c)) = listMax l / c := by
  induction l with
  | nil => simp [listMax]
  | cons a t ih =>
    cases t with
    | nil => simp [listMax]
    | cons b t2 =>
      simp only [List.map_cons, listMax] at ih ⊢
      rw [ih, max_div_div_right (le_of_lt hc)]

theorem clamp01_mem (x : ℚ) : 0 ≤ clamp01 x ∧ clamp01 x ≤ 1 :=
  ⟨le_min zero_le_one (le_max_left 0 x), min_le_left _ _⟩

theorem renormalizeMax_inv (l : List ℚ) (hin : ∀ v ∈ l, 0 ≤ v ∧ v ≤ 1) :
    (∀ v ∈ renormalizeMax l, 0 ≤ v ∧ v ≤ 1) ∧
    (listMax (renormalizeMax l) = 0 ∨ listMax (renormalizeMax l) = 1) := by
  by_cases hne : l = []
  · subst hne
    simp [renormalizeMax, listMax]
  · have hie : l.isEmpty = false := by
      cases l with
      | nil => exact absurd rfl hne
      | cons a t => rfl
    by_cases hM : 0 < listMax l
    · have hres : renormalizeMax l = l.map (fun v => v / listMax l) := by
        unfold renormalizeMax
        rw [hie]
        simp only [Bool.false_eq_true, if_false, if_pos hM]
      rw [hres]
      refine ⟨?_, Or.inr ?_⟩
      · intro v hv
        obtain ⟨p, hp, rfl⟩ := List.mem_map.mp hv
        exact ⟨div_nonneg (hin p hp).1 (le_of_lt hM),
          (div_le_one hM).mpr (le_listMax hp)⟩
      · rw [listMax_map_div _ _ hM]
        exact div_self (ne_of_gt hM)
    · have hres : renormalizeMax l = l := by
        unfold renormalizeMax
        rw [hie]
        simp only [Bool.false_eq_true, if_false, if_neg hM]
      rw [hres]
      refine ⟨hin, Or.inl ?_⟩
      have h1 : 0 ≤ listMax l := (hin _ (listMax_mem hne)).1
      have h2 : listMax l ≤ 0 := le_of_not_lt hM
      exact le_antisymm h2 h1

theorem normalize_vector_inv (vec : List ℚ) (h0 : ∀ x ∈ vec, 0 ≤ x) :
    (∀ v ∈ normalize_vector vec, 0 ≤ v ∧ v ≤ 1) ∧
    (listMax (normalize_vector vec) = 0 ∨ listMax (normalize_vector vec) = 1) := by
  by_cases hne : vec = []
  · subst hne
    simp [normalize_vector, listMax]
  · have hie : vec.isEmpty = false := by
      cases vec with
      | nil => exact absurd rfl hne
      | cons a t => rfl
    by_cases hM : listMax vec ≤ 0
    · have hres : normalize_vector vec = vec.map (fun _ => 0) := by
        unfold normalize_vector
        rw [hie]
        simp only [Bool.false_eq_true, if_false, if_pos hM]
      rw [hres]
      constructor
      · intro v hv
        obtain ⟨p, _, rfl⟩ := List.mem_map.mp hv
        exact ⟨le_refl 0, zero_le_one⟩
      · left
        have : listMax (vec.map (fun _ => (0 : ℚ))) ∈ vec.map (fun _ => (0 : ℚ)) :=
          listMax_mem (by simpa using hne)
        obtain ⟨p, _, hp⟩ := List.mem_map.mp this
        exact hp.symm
    · push_neg at hM
      have hres : normalize_vector vec = vec.map (fun v => v / listMax vec) := by
        unfold normalize_vector
        rw [hie]
        simp only [Bool.false_eq_true, if_false, if_neg (not_le.mpr hM)]
      rw [hres]
      refine ⟨?_, Or.inr ?_⟩
      · intro v hv
        obtain ⟨p, hp, rfl⟩ := List.mem_map.mp hv
        exact ⟨div_nonneg (h0 p hp) (le_of_lt hM), (div_le_one hM).mpr (le_listMax hp)⟩
      · rw [listMax_map_div _ _ hM]
        exact div_self (ne_of_gt hM)

theorem pitch_scale_bias_inv (scale bias pitches : List ℚ)
    (hin : (∀ v ∈ pitches, 0 ≤ v ∧ v ≤ 1) ∧
      (listMax pitches = 0 ∨ listMax pitches = 1)) :
    (∀ v ∈ pitch_scale_bias_step scale bias pitches, 0 ≤ v ∧ v ≤ 1) ∧
    (listMax (pitch_scale_bias_step scale bias pitches) = 0 ∨
      listMax (pitch_scale_bias_step scale bias pitches) = 1) := by
  unfold pitch_scale_bias_step
  split_ifs with hl
  · exact hin
  · apply renormalizeMax_inv
    intro v hv
    obtain ⟨p, _, rfl⟩ := List.mem_map.mp hv
    exact clamp01_mem _

theorem pitch_matrix_inv (matrix : List (List ℚ)) (bias pitches : List ℚ)
    (hin : (∀ v ∈ pitches, 0 ≤ v ∧ v ≤ 1) ∧
      (listMax pitches = 0 ∨ listMax pitches = 1)) :
    (∀ v ∈ pitch_matrix_step matrix bias pitches, 0 ≤ v ∧ v ≤ 1) ∧
    (listMax (pitch_matrix_step matrix bias pitches) = 0 ∨
      listMax (pitch_matrix_step matrix bias pitches) = 1) := by
  unfold pitch_matrix_step
  split_ifs with hl
  · exact hin
  · apply renormalizeMax_inv
    intro v hv
    obtain ⟨p, _, rfl⟩ := List.mem_map.mp hv
    exact clamp01_mem _

/-- Claim C6: for every segment, after the max-normalization of the mean
chroma (whose entries are nonnegative, being means of nonnegative spectral
power sums) and every configured pitch calibration step, each pitch value
lies in `[0, 1]` and the maximum of the pitches vector is exactly 0 or
exactly 1. -/
theorem C6_pitch_normalization (chroma : List ℚ)
    (sb : Option (List ℚ × List ℚ)) (mb : Option (List (List ℚ) × List ℚ))
    (h0 : ∀ x ∈ chroma, 0 ≤ x) :
    (∀ v ∈ segment_pitches chroma sb mb, 0 ≤ v ∧ v ≤ 1) ∧
    (listMax (segment_pitches chroma sb mb) = 0 ∨
      listMax (segment_pitches chroma sb mb) = 1) := by
  unfold segment_pitches
  have h1 := normalize_vector_inv chroma h0
  cases sb with
  | none =>
    cases mb with
    | none => exact h1
    | some mbv => exact pitch_matrix_inv _ _ _ h1
  | some sbv =>
    have h2 := pitch_scale_bias_inv sbv.1 sbv.2 _ h1
    cases mb with
    | none => exact h2
    | some mbv => exact pitch_matrix_inv _ _ _ h2

/-- Claim C6, witness: `C6_pitch_normalization` on a concrete 12-bin chroma
with a concrete scale/bias calibration configured. -/
theorem C6_pitch_normalization_witness :
    (∀ v ∈ segment_pitches [2, 1, 0, 0, 0, 0, 0, 0, 0, 0, 0, 1]
        (some (List.replicate 12 (1/2), List.replicate 12 (1/10))) none,
      0 ≤ v ∧ v ≤ 1) ∧
    (listMax (segment_pitches [2, 1, 0, 0, 0, 0, 0, 0, 0, 0, 0, 1]
        (some (List.replicate 12 (1/2), List.replicate 12 (1/10))) none) = 0 ∨
      listMax (segment_pitches [2, 1, 0, 0, 0, 0, 0, 0, 0, 0, 0, 1]
        (some (List.replicate 12 (1/2), List.replicate 12 (1/10))) none) = 1) :=
  C6_pitch_normalization _ _ _ (by
    intro x hx
    fin_cases hx <;> norm_num)

theorem sorted_getD_le {times : List ℚ} (hs : List.Sorted (· ≤ ·) times)
    {i j : ℕ} (hij : i ≤ j) (hj : j < times.length) :
    times.getD i 0 ≤ times.getD j 0 := by
  rcases eq_or_lt_of_le hij with rfl | hlt
  · exact le_refl _
  · have hi : i < times.length := lt_trans hlt hj
    rw [List.getD_eq_getElem?_getD, List.getD_eq_getElem?_getD,
      List.getElem?_eq_getElem hi, List.getElem?_eq_getElem hj]
    exact List.pairwise_iff_getElem.mp hs i j hi hj hlt

theorem events_from_times_spec (times confs : List ℚ) (duration : ℚ)
    (hs : List.Sorted (· ≤ ·) times) :
    List.Pairwise (fun a b => a.start < b.start) (_events_from_times times confs duration) ∧
    ∀ e ∈ _events_from_times times confs duration, 0 < e.duration := by
  constructor
  · unfold _events_from_times
    rw [List.pairwise_filterMap]
    have hpr : List.Pairwise (fun i j => i < j ∧ j < times.length)
        (List.range times.length) := by
      rw [List.pairwise_iff_getElem]
      intro i j hi hj hij
      simp only [List.getElem_range]
      exact ⟨hij, by simpa using hj⟩
    refine hpr.imp ?_
    rintro i j ⟨hij, hj⟩ e1 he1 e2 he2
    simp only [Option.mem_def] at he1 he2
    have hi1 : i + 1 < times.length := lt_of_le_of_lt hij hj
    rw [if_pos hi1] at he1
    generalize hB : (if j + 1 < times.length then times.getD (j + 1) 0 else duration) = B at he2
    split at he1
    · cases he1
    · split at he2
      · cases he2
      · cases he1
        cases he2
        rename_i h1 _
        push_neg at h1
        exact lt_of_lt_of_le h1 (sorted_getD_le hs hij hj)
  · intro e he
    obtain ⟨i, _, hf⟩ := List.mem_filterMap.mp he
    generalize hA : (if i + 1 < times.length then times.getD (i + 1) 0 else duration) = A at hf
    split at hf
    · cases hf
    · cases hf
      rename_i h1
      push_neg at h1
      simpa using h1

theorem mem_fix_start (duration : ℚ) :
    ∀ (l : List Event), ∀ x ∈ _fix_event_end l duration,
      ∃ y ∈ l, x.start = y.start ∨ (y.start < 0 ∧ x.start = 0) := by
  intro l
  induction l with
  | nil => intro x hx; cases hx
  | cons e rest ih =>
    cases rest with
    | nil =>
      intro x hx
      simp only [_fix_event_end, List.mem_singleton] at hx
      subst hx
      refine ⟨e, by simp, ?_⟩
      unfold fixLastEvent
      split_ifs with h
      · exact Or.inr ⟨h, rfl⟩
      · exact Or.inl rfl
    | cons e2 rest2 =>
      intro x hx
      rw [show _fix_event_end (e :: e2 :: rest2) duration
          = e :: _fix_event_end (e2 :: rest2) duration from rfl] at hx
      rcases List.mem_cons.mp hx with rfl | hmem
      · exact ⟨x, by simp, Or.inl rfl⟩
      · obtain ⟨y, hy, hrel⟩ := ih x hmem
        exact ⟨y, List.mem_cons_of_mem _ hy, hrel⟩

theorem fix_event_end_spec (duration : ℚ) :
    ∀ (events : List Event),
    List.Pairwise (fun a b => a.start < b.start) events →
    (∀ e ∈ events, 0 ≤ e.duration) →
    List.Pairwise (fun a b => a.start < b.start) (_fix_event_end events duration) ∧
    ∀ e ∈ _fix_event_end events duration, 0 ≤ e.duration := by
  intro events
  induction events with
  | nil =>
    intro _ _
    exact ⟨List.Pairwise.nil, by intro e he; cases he⟩
  | cons e rest ih =>
    intro hp hd
    cases rest with
    | nil =>
      refine ⟨List.pairwise_singleton _ _, ?_⟩
      intro x hx
      simp only [_fix_event_end, List.mem_singleton] at hx
      subst hx
      unfold fixLastEvent
      exact le_max_left _ _
    | cons e2 rest2 =>
      obtain ⟨hhead, htail⟩ := List.pairwise_cons.mp hp
      obtain ⟨ihp, ihd⟩ := ih htail (fun x hx => hd x (List.mem_cons_of_mem _ hx))
      rw [show _fix_event_end (e :: e2 :: rest2) duration
          = e :: _fix_event_end (e2 :: rest2) duration from rfl]
      constructor
      · refine List.pairwise_cons.mpr ⟨?_, ihp⟩
        intro x hx
        obtain ⟨y, hy, hrel⟩ := mem_fix_start duration (e2 :: rest2) x hx
        rcases hrel with heq | ⟨hneg, hzero⟩
        · rw [heq]; exact hhead y hy
        · rw [hzero]
          linarith [hhead y hy, hneg]
      · intro x hx
        rcases List.mem_cons.mp hx with rfl | hmem
        · exact hd x (by simp)
        · exact ihd x hmem

theorem nearestFirst_ne_none : ∀ {l : List ℚ}, l ≠ [] → ∀ t, nearestFirst t l ≠ none := by
  intro l
  induction l with
  | nil => intro h; exact absurd rfl h
  | cons a rest ih =>
    intro _ t
    cases rest with
    | nil => simp [nearestFirst]
    | cons b rest2 =>
      cases hr : nearestFirst t (b :: rest2) with
      | none => exact absurd hr (ih (by simp) t)
      | some r =>
        simp only [nearestFirst, hr]
        split <;> simp

theorem nearestFirst_mem : ∀ {l : List ℚ} {t q : ℚ}, nearestFirst t l = some q → q ∈ l := by
  intro l
  induction l with
  | nil => intro t q h; cases h
  | cons a rest ih =>
    intro t q h
    cases rest with
    | nil =>
      simp only [nearestFirst, Option.some.injEq] at h
      simp [h]
    | cons b rest2 =>
      cases hr : nearestFirst t (b :: rest2) with
      | none => exact absurd hr (nearestFirst_ne_none (by simp) t)
      | some r =>
        simp only [nearestFirst, hr] at h
        split at h
        · cases h
          exact List.mem_cons_of_mem _ (ih hr)
        · cases h
          exact List.mem_cons_self _ _

theorem nearestFirst_min : ∀ {l : List ℚ} {t q : ℚ}, nearestFirst t l = some q →
    ∀ p ∈ l, |q - t| ≤ |p - t| := by
  intro l
  induction l with
  | nil => intro t q h; cases h
  | cons a rest ih =>
    intro t q h p hp
    cases rest with
    | nil =>
      simp only [nearestFirst, Option.some.injEq] at h
      simp only [List.mem_singleton] at hp
      subst h
      subst hp
      exact le_refl _
    | cons b rest2 =>
      cases hr : nearestFirst t (b :: rest2) with
      | none => exact absurd hr (nearestFirst_ne_none (by simp) t)
      | some r =>
        simp only [nearestFirst, hr] at h
        split at h
        case isTrue hcond =>
          cases h
          rcases List.mem_cons.mp hp with rfl | hmem
          · exact le_of_lt hcond
          · exact ih hr p hmem
        case isFalse hcond =>
          cases h
          rcases List.mem_cons.mp hp with rfl | hmem
          · exact le_refl _
          · exact le_trans (le_of_not_lt hcond) (ih hr p hmem)

theorem nearestFirst_first : ∀ {l : List ℚ}, List.Sorted (· < ·) l →
    ∀ {t q : ℚ}, nearestFirst t l = some q →
    ∀ p ∈ l, p < q → |q - t| < |p - t| := by
  intro l
  induction l with
  | nil => intro _ t q h; cases h
  | cons a rest ih =>
    intro hs t q h p hp hpq
    cases rest with
    | nil =>
      simp only [nearestFirst, Option.some.injEq] at h
      simp only [List.mem_singleton] at hp
      subst h
      subst hp
      exact absurd hpq (lt_irrefl _)
    | cons b rest2 =>
      cases hr : nearestFirst t (b :: rest2) with
      | none => exact absurd hr (nearestFirst_ne_none (by simp) t)
      | some r =>
        simp only [nearestFirst, hr] at h
        split at h
        case isTrue hcond =>
          cases h
          rcases List.mem_cons.mp hp with rfl | hmem
          · exact hcond
          · exact ih hs.of_cons hr p hmem hpq
        case isFalse hcond =>
          cases h
          rcases List.mem_cons.mp hp with rfl | hmem
          · exact absurd hpq (lt_irrefl _)
          · exact absurd hpq (not_lt_of_gt ((List.sorted_cons.mp hs).1 p hmem))

theorem snapOne_mono (peaks : List ℚ) (hs : List.Sorted (· < ·) peaks) (w : ℚ)
    {t t' : ℚ} (htt : t ≤ t') : snapOne peaks w t ≤ snapOne peaks w t' := by
  by_cases hne : peaks = []
  · subst hne
    simp only [snapOne, nearestFirst]
    exact htt
  · obtain ⟨q, hq⟩ : ∃ q, nearestFirst t peaks = some q := by
      cases hx : nearestFirst t peaks with
      | none => exact absurd hx (nearestFirst_ne_none hne t)
      | some q => exact ⟨q, rfl⟩
    obtain ⟨q', hq'⟩ : ∃ q', nearestFirst t' peaks = some q' := by
      cases hx : nearestFirst t' peaks with
      | none => exact absurd hx (nearestFirst_ne_none hne t')
      | some q' => exact ⟨q', rfl⟩
    simp only [snapOne, hq, hq']
    by_cases hsn : |q - t| ≤ w <;> by_cases hsn' : |q' - t'| ≤ w
    · rw [if_pos hsn, if_pos hsn']
      by_contra hgt
      push_neg at hgt
      have hfirst := nearestFirst_first hs hq q' (nearestFirst_mem hq') hgt
      have hmin' := nearestFirst_min hq' q (nearestFirst_mem hq)
      have key : |q' - t| - |q - t| ≤ |q' - t'| - |q - t'| := by
        have hqq : q' ≤ q := le_of_lt hgt
        rcases abs_cases (q' - t) with ⟨h1, h1s⟩ | ⟨h1, h1s⟩ <;>
        rcases abs_cases (q - t) with ⟨h2, h2s⟩ | ⟨h2, h2s⟩ <;>
        rcases abs_cases (q' - t') with ⟨h3, h3s⟩ | ⟨h3, h3s⟩ <;>
        rcases abs_cases (q - t') with ⟨h4, h4s⟩ | ⟨h4, h4s⟩ <;> linarith
      linarith
    · rw [if_pos hsn, if_neg hsn']
      by_contra hgt
      push_neg at hgt
      have hmin' := nearestFirst_min hq' q (nearestFirst_mem hq)
      apply hsn'
      have h1 : |q - t'| ≤ |q - t| := by
        rw [abs_of_pos (by linarith : (0 : ℚ) < q - t'),
          abs_of_pos (by linarith : (0 : ℚ) < q - t)]
        linarith
      exact le_trans hmin' (le_trans h1 hsn)
    · rw [if_neg hsn, if_pos hsn']
      by_contra hgt
      push_neg at hgt
      have hmin := nearestFirst_min hq q' (nearestFirst_mem hq')
      apply hsn
      have h1 : |q' - t| ≤ |q' - t'| := by
        rw [abs_of_neg (by linarith : q' - t < 0),
          abs_of_neg (by linarith : q' - t' < 0)]
        linarith
      exact le_trans hmin (le_trans h1 hsn')
    · rw [if_neg hsn, if_neg hsn']
      exact htt

theorem snap_times_to_peaks_sorted (times peaks : List ℚ) (w : ℚ)
    (hst : List.Sorted (· ≤ ·) times) (hsp : List.Sorted (· < ·) peaks) :
    List.Sorted (· ≤ ·) (snap_times_to_peaks times peaks w) := by
  unfold snap_times_to_peaks
  split_ifs with h
  · exact hst
  · exact List.Pairwise.map _ (fun a b hab => snapOne_mono peaks hsp w hab) hst

/-- Claim C7 (amended): the event-list constructions of the pipeline keep
every list strictly ordered by `start` with `duration ≥ 0` — events built by
`_events_from_times` from a non-decreasing time array are strictly ordered
with positive durations, `_fix_event_end` preserves the ordering and keeps
durations nonnegative, and beat snapping (`snap_times_to_peaks`) preserves
the non-decreasing ordering of a time array — but the optional start-offset
time warp applied to segments can reorder starts (see the counterexample),
so the segments list is strictly ordered only in the absence of such a
calibration. -/
theorem C7_event_lists_amended :
    (∀ (times confs : List ℚ) (duration : ℚ), List.Sorted (· ≤ ·) times →
      List.Pairwise (fun a b => a.start < b.start) (_events_from_times times confs duration) ∧
      ∀ e ∈ _events_from_times times confs duration, 0 ≤ e.duration) ∧
    (∀ (events : List Event) (duration : ℚ),
      List.Pairwise (fun a b => a.start < b.start) events →
      (∀ e ∈ events, 0 ≤ e.duration) →
      List.Pairwise (fun a b => a.start < b.start) (_fix_event_end events duration) ∧
      ∀ e ∈ _fix_event_end events duration, 0 ≤ e.duration) ∧
    (∀ (times peaks : List ℚ) (w : ℚ), List.Sorted (· ≤ ·) times →
      List.Sorted (· < ·) peaks →
      List.Sorted (· ≤ ·) (snap_times_to_peaks times peaks w)) := by
  refine ⟨?_, ?_, ?_⟩
  · intro times confs duration hs
    obtain ⟨h1, h2⟩ := events_from_times_spec times confs duration hs
    exact ⟨h1, fun e he => le_of_lt (h2 e he)⟩
  · intro events duration hp hd
    exact fix_event_end_spec duration events hp hd
  · intro times peaks w hst hsp
    exact snap_times_to_peaks_sorted times peaks w hst hsp

/-- Claim C7, counterexample to the claim as stated: a configured
start-offset time warp (`start_offset_map_src = [0, 1]`,
`start_offset_map_dst = [10, -10]`, duration 10) maps the strictly ordered
segment list with starts `4, 5` to starts `6, 5` — the artifact's segments
list is then not strictly ordered by start. -/
theorem C7_event_lists_counterexample :
    List.Pairwise (fun a b => a.start < b.start)
      [(⟨4, 1, 1/2⟩ : Event), ⟨5, 5, 1/2⟩] ∧
    (∀ e ∈ [(⟨4, 1, 1/2⟩ : Event), ⟨5, 5, 1/2⟩], 0 ≤ e.duration) ∧
    applyStartOffsetMap [0, 1] [10, -10] 10 [⟨4, 1, 1/2⟩, ⟨5, 5, 1/2⟩]
      = [⟨6, 1, 1/2⟩, ⟨5, 5, 1/2⟩] ∧
    ¬ List.Pairwise (fun a b => a.start < b.start)
      (applyStartOffsetMap [0, 1] [10, -10] 10 [⟨4, 1, 1/2⟩, ⟨5, 5, 1/2⟩]) := by
  refine ⟨?_, ?_, ?_, ?_⟩
  · norm_num [List.pairwise_cons]
  · intro e he
    fin_cases he <;> norm_num
  · norm_num [applyStartOffsetMap, np_interp, interpGo, min_def, max_def]
  · norm_num [applyStartOffsetMap, np_interp, interpGo, min_def, max_def,
      List.pairwise_cons]

/-- Claim C7, witness: `C7_event_lists_amended` applied to concrete sorted
times, events, and peaks. -/
theorem C7_event_lists_witness :
    (List.Pairwise (fun a b => a.start < b.start)
        (_events_from_times [0, 2, 2, 5] [1, 1, 1, 1] 6) ∧
      ∀ e ∈ _events_from_times [0, 2, 2, 5] [1, 1, 1, 1] 6, 0 ≤ e.duration) ∧
    (List.Pairwise (fun a b => a.start < b.start)
        (_fix_event_end [⟨0, 2, 1⟩, ⟨2, 3, 1⟩] 6) ∧
      ∀ e ∈ _fix_event_end [⟨0, 2, 1⟩, ⟨2, 3, 1⟩] 6, 0 ≤ e.duration) ∧
    List.Sorted (· ≤ ·) (snap_times_to_peaks [0, 1, 2] [21/20] (1/10)) := by
  refine ⟨?_, ?_, ?_⟩
  · exact C7_event_lists_amended.1 [0, 2, 2, 5] [1, 1, 1, 1] 6 (by norm_num)
  · refine C7_event_lists_amended.2.1 [⟨0, 2, 1⟩, ⟨2, 3, 1⟩] 6 ?_ ?_
    · norm_num [List.pairwise_cons]
    · intro e he
      fin_cases he <;> norm_num
  · exact C7_event_lists_amended.2.2 [0, 1, 2] [21/20] (1/10) (by norm_num) (by norm_num)

theorem le_listMaxR {l : List ℝ} {x : ℝ} (hx : x ∈ l) : x ≤ listMaxR l := by
  induction l with
  | nil => cases hx
  | cons a t ih =>
    cases t with
    | nil =>
      simp only [List.mem_singleton] at hx
      simp [listMaxR, hx]
    | cons b t2 =>
      simp only [listMaxR]
      rcases List.mem_cons.mp hx with rfl | hmem
      · exact le_max_left _ _
      · exact le_trans (ih hmem) (le_max_right _ _)

theorem listMinR_le {l : List ℝ} {x : ℝ} (hx : x ∈ l) : listMinR l ≤ x := by
  induction l with
  | nil => cases hx
  | cons a t ih =>
    cases t with
    | nil =>
      simp only [List.mem_singleton] at hx
      simp [listMinR, hx]
    | cons b t2 =>
      simp only [listMinR]
      rcases List.mem_cons.mp hx with rfl | hmem
      · exact min_le_left _ _
      · exact le_trans (min_le_right _ _) (ih hmem)

theorem sumSq_nonneg (v : List ℝ) : 0 ≤ sumSq v := by
  unfold sumSq
  apply List.sum_nonneg
  intro x hx
  obtain ⟨y, _, rfl⟩ := List.mem_map.mp hx
  exact sq_nonneg y

theorem l2norm_nonneg (v : List ℝ) : 0 ≤ l2norm v := Real.sqrt_nonneg _

theorem sqrt_two_dim (x y z w : ℝ) (hx : 0 ≤ x) (hy : 0 ≤ y) (hz : 0 ≤ z) (hw : 0 ≤ w) :
    x * y + z * w ≤ Real.sqrt ((x ^ 2 + z ^ 2) * (y ^ 2 + w ^ 2)) := by
  rw [Real.le_sqrt (add_nonneg (mul_nonneg hx hy) (mul_nonneg hz hw)) (by positivity)]
  nlinarith [sq_nonneg (x * w - z * y)]

theorem abs_dotList_le (u : List ℝ) : ∀ v : List ℝ, |dotList u v| ≤ l2norm u * l2norm v := by
  induction u with
  | nil =>
    intro v
    simp [dotList, l2norm, sumSq]
  | cons a u ih =>
    intro v
    cases v with
    | nil => simp [dotList, l2norm, sumSq]
    | cons b v =>
      have hd : dotList (a :: u) (b :: v) = a * b + dotList u v := by
        simp [dotList]
      have hnu : l2norm (a :: u) = Real.sqrt (a ^ 2 + sumSq u) := by
        simp [l2norm, sumSq]
      have hnv : l2norm (b :: v) = Real.sqrt (b ^ 2 + sumSq v) := by
        simp [l2norm, sumSq]
      rw [hd, hnu, hnv]
      have h1 : |a * b + dotList u v| ≤ |a| * |b| + |dotList u v| := by
        calc |a * b + dotList u v| ≤ |a * b| + |dotList u v| := abs_add _ _
        _ = |a| * |b| + |dotList u v| := by rw [abs_mul]
      have h2 : |a| * |b| + Real.sqrt (sumSq u) * Real.sqrt (sumSq v)
          ≤ Real.sqrt ((a ^ 2 + sumSq u) * (b ^ 2 + sumSq v)) := by
        have := sqrt_two_dim |a| |b| (Real.sqrt (sumSq u)) (Real.sqrt (sumSq v))
          (abs_nonneg a) (abs_nonneg b) (Real.sqrt_nonneg _) (Real.sqrt_nonneg _)
        rwa [sq_abs, sq_abs, Real.sq_sqrt (sumSq_nonneg u), Real.sq_sqrt (sumSq_nonneg v)]
          at this
      have h3 : Real.sqrt ((a ^ 2 + sumSq u) * (b ^ 2 + sumSq v))
          = Real.sqrt (a ^ 2 + sumSq u) * Real.sqrt (b ^ 2 + sumSq v) :=
        Real.sqrt_mul (add_nonneg (sq_nonneg a) (sumSq_nonneg u)) _
      have h4 := ih v
      calc |a * b + dotList u v|
          ≤ |a| * |b| + |dotList u v| := h1
        _ ≤ |a| * |b| + Real.sqrt (sumSq u) * Real.sqrt (sumSq v) := by
            have := ih v
            simp only [l2norm] at this
            linarith
        _ ≤ Real.sqrt ((a ^ 2 + sumSq u) * (b ^ 2 + sumSq v)) := h2
        _ = Real.sqrt (a ^ 2 + sumSq u) * Real.sqrt (b ^ 2 + sumSq v) := h3

theorem mfccNovelty_range (frames : List (List ℝ)) (eps : ℝ) (heps : 0 < eps) :
    ∀ v ∈ mfccNovelty frames eps, 0 ≤ v ∧ v ≤ 2 := by
  intro v hv
  unfold mfccNovelty at hv
  obtain ⟨i, _, hf⟩ := List.mem_map.mp hv
  by_cases hi : i = 0
  · rw [if_pos hi] at hf
    rw [← hf]
    norm_num
  · rw [if_neg hi] at hf
    set prev := frames.getD (i - 1) [] with hprev
    set curr := frames.getD i [] with hcurr
    have habs : |dotList prev curr| ≤ l2norm prev * l2norm curr := abs_dotList_le prev curr
    have hN : 0 ≤ l2norm prev * l2norm curr :=
      mul_nonneg (l2norm_nonneg _) (l2norm_nonneg _)
    have hpos : 0 < l2norm prev * l2norm curr + eps := by linarith
    have hq : |dotList prev curr / (l2norm prev * l2norm curr + eps)| ≤ 1 := by
      rw [abs_div, abs_of_pos hpos]
      rw [div_le_one hpos]
      linarith
    rw [abs_le] at hq
    rw [← hf]
    constructor <;> linarith [hq.1, hq.2]

theorem maxNormalize_range (l : List ℝ) (eps : ℝ) (heps : 0 < eps)
    (h0 : ∀ x ∈ l, 0 ≤ x) : ∀ v ∈ maxNormalize l eps, 0 ≤ v ∧ v < 1 := by
  intro v hv
  unfold maxNormalize at hv
  split at hv
  · rename_i hemp
    rw [List.isEmpty_iff] at hemp
    rw [hemp] at hv
    cases hv
  · rename_i hemp
    obtain ⟨x, hx, rfl⟩ := List.mem_map.mp hv
    have hne : l ≠ [] := by
      intro h
      rw [h] at hemp
      exact hemp rfl
    have hxM : x ≤ listMaxR l := le_listMaxR hx
    have hM0 : 0 ≤ listMaxR l := le_trans (h0 x hx) hxM
    have hpos : 0 < listMaxR l + eps := by linarith
    exact ⟨div_nonneg (h0 x hx) (le_of_lt hpos), (div_lt_one hpos).mpr (by linarith)⟩

theorem getZ_range {l : List ℝ} {lo hi : ℝ} (hlo : lo ≤ 0) (hhi : 0 ≤ hi)
    (h : ∀ x ∈ l, lo ≤ x ∧ x ≤ hi) (z : ℤ) : lo ≤ getZ l z ∧ getZ l z ≤ hi := by
  unfold getZ
  split
  · exact ⟨hlo, hhi⟩
  · rw [List.getD_eq_getElem?_getD]
    cases hg : l[z.toNat]? with
    | none => exact ⟨hlo, hhi⟩
    | some x =>
      simp only [Option.getD_some]
      exact h x (List.getElem?_mem hg)

theorem convSameAvg_range (l : List ℝ) (w : ℕ) (h : ∀ x ∈ l, 0 ≤ x ∧ x ≤ 2) :
    ∀ v ∈ convSameAvg l w, 0 ≤ v ∧ v ≤ 2 := by
  intro v hv
  unfold convSameAvg at hv
  obtain ⟨i, _, hf⟩ := List.mem_map.mp hv
  rcases Nat.eq_zero_or_pos w with rfl | hw
  · rw [← hf]
    norm_num
  · have hwR : (0 : ℝ) < (w : ℝ) := by exact_mod_cast hw
    have hsum_lo : (0 : ℝ) ≤ ∑ t ∈ Finset.range w, getZ l ((i : ℤ) + ((w - 1) / 2 : ℕ) - t) :=
      Finset.sum_nonneg fun t _ => (getZ_range (le_refl 0) (by norm_num) h _).1
    have hsum_hi : (∑ t ∈ Finset.range w, getZ l ((i : ℤ) + ((w - 1) / 2 : ℕ) - t))
        ≤ 2 * (w : ℝ) := by
      calc (∑ t ∈ Finset.range w, getZ l ((i : ℤ) + ((w - 1) / 2 : ℕ) - t))
          ≤ ∑ _t ∈ Finset.range w, (2 : ℝ) :=
            Finset.sum_le_sum fun t _ => (getZ_range (le_refl 0) (by norm_num) h _).2
        _ = 2 * (w : ℝ) := by simp [mul_comm]
      
    rw [← hf]
    constructor
    · exact div_nonneg hsum_lo (le_of_lt hwR)
    · rw [div_le_iff₀ hwR]
      linarith

theorem combined_novelty_range (frames : List (List ℝ)) (onset : List ℝ)
    (eps : ℝ) (smooth : ℕ) (heps : 0 < eps) (honset : ∀ x ∈ onset, 0 ≤ x) :
    ∀ v ∈ combined_novelty frames onset eps smooth, 0 ≤ v ∧ v ≤ 2 := by
  unfold combined_novelty
  have hnn : ∀ x ∈ (mfccNovelty frames eps).take
      (min (mfccNovelty frames eps).length onset.length), 0 ≤ x := fun x hx =>
    (mfccNovelty_range frames eps heps x (List.mem_of_mem_take hx)).1
  have hon : ∀ x ∈ onset.take (min (mfccNovelty frames eps).length onset.length), 0 ≤ x :=
    fun x hx => honset x (List.mem_of_mem_take hx)
  have hzip : ∀ v ∈ List.zipWith (· + ·)
      (maxNormalize ((mfccNovelty frames eps).take
        (min (mfccNovelty frames eps).length onset.length)) eps)
      (maxNormalize (onset.take
        (min (mfccNovelty frames eps).length onset.length)) eps),
      0 ≤ v ∧ v ≤ 2 := by
    intro v hv
    obtain ⟨i, hi, rfl⟩ := List.mem_iff_getElem.mp hv
    rw [List.getElem_zipWith]
    have hlen := hi
    rw [List.length_zipWith, lt_min_iff] at hlen
    have ha := maxNormalize_range _ eps heps hnn _
      (List.getElem_mem hlen.1)
    have hb := maxNormalize_range _ eps heps hon _
      (List.getElem_mem hlen.2)
    constructor
    · exact add_nonneg ha.1 hb.1
    · linarith [ha.2, hb.2]
  split
  · exact convSameAvg_range _ smooth hzip
  · exact hzip

theorem novelty_from_ssm_range (n : ℕ) (ssm : ℕ → ℕ → ℝ) (kernel : ℕ) (eps : ℝ)
    (heps : 0 < eps) : ∀ v ∈ novelty_from_ssm n ssm kernel eps, 0 ≤ v ∧ v < 1 := by
  intro v hv
  unfold novelty_from_ssm at hv
  split at hv
  · cases hv
  · dsimp only at hv
    split at hv
    · rw [List.eq_of_mem_replicate hv]
      norm_num
    · obtain ⟨x, hx, rfl⟩ := List.mem_map.mp hv
      obtain ⟨y, hy, rfl⟩ := List.mem_map.mp hx
      have h0 : 0 ≤ y - listMinR ((List.range n).map (noveltyRaw n (min kernel (n / 2)) ssm)) := by
        have := listMinR_le hy
        linarith
      have hxM : y - listMinR ((List.range n).map (noveltyRaw n (min kernel (n / 2)) ssm))
          ≤ listMaxR (((List.range n).map (noveltyRaw n (min kernel (n / 2)) ssm)).map
            (fun v => v - listMinR ((List.range n).map (noveltyRaw n (min kernel (n / 2)) ssm)))) :=
        le_listMaxR (List.mem_map_of_mem _ hy)
      have hM0 : 0 ≤ listMaxR (((List.range n).map (noveltyRaw n (min kernel (n / 2)) ssm)).map
          (fun v => v - listMinR ((List.range n).map (noveltyRaw n (min kernel (n / 2)) ssm)))) :=
        le_trans h0 hxM
      have hpos : 0 < listMaxR (((List.range n).map (noveltyRaw n (min kernel (n / 2)) ssm)).map
          (fun v => v - listMinR ((List.range n).map (noveltyRaw n (min kernel (n / 2)) ssm)))) + eps := by
        linarith
      exact ⟨div_nonneg h0 (le_of_lt hpos), (div_lt_one hpos).mpr (by linarith)⟩

/-- Claim C2 (amended): every self-similarity novelty curve (segment and
section) has all its values in `[0, 1]`, but strictly below 1 — the
normalizer divides the min-shifted scores by `max + EPS`, so no value
reaches 1 exactly; the combined novelty curve is the element-wise sum of two
max-normalized curves and lies in `[0, 2]` — it is not confined to `[0, 1]`
(see the counterexample), and none of the curves is guaranteed a value equal
to 1. -/
theorem C2_novelty_range_amended :
    (∀ (n : ℕ) (ssm : ℕ → ℕ → ℝ) (kernel : ℕ) (eps : ℝ), 0 < eps →
      ∀ v ∈ novelty_from_ssm n ssm kernel eps, 0 ≤ v ∧ v < 1) ∧
    (∀ (frames : List (List ℝ)) (onset : List ℝ) (eps : ℝ) (smooth : ℕ),
      0 < eps → (∀ x ∈ onset, 0 ≤ x) →
      ∀ v ∈ combined_novelty frames onset eps smooth, 0 ≤ v ∧ v ≤ 2) :=
  ⟨fun n ssm kernel eps heps => novelty_from_ssm_range n ssm kernel eps heps,
   fun frames onset eps smooth heps honset =>
     combined_novelty_range frames onset eps smooth heps honset⟩

/-- Claim C2, counterexample to the claim as stated: on the MFCC frames
`[1]`, `[-1]` and the (nonnegative, non-constant) onset envelope `[0, 1]`,
with `EPS = 1e-8` and no smoothing, the combined novelty curve contains a
value strictly greater than 1 — it is the sum of two max-normalized curves,
not itself normalized to `[0, 1]`. -/
theorem C2_novelty_range_counterexample :
    ∃ v ∈ combined_novelty [[(1 : ℝ)], [-1]] [0, 1] (1/100000000) 1, 1 < v := by
  have hm : mfccNovelty [[(1 : ℝ)], [-1]] (1/100000000)
      = [0, 1 + 1 / (1 + 1/100000000)] := by
    norm_num [mfccNovelty, List.range_succ, dotList, l2norm, sumSq, Real.sqrt_one]
  have hcomb : combined_novelty [[(1 : ℝ)], [-1]] [0, 1] (1/100000000) 1
      = List.zipWith (· + ·)
          (maxNormalize [0, 1 + 1 / (1 + 1/100000000)] (1/100000000))
          (maxNormalize [0, 1] (1/100000000)) := by
    unfold combined_novelty
    rw [hm]
    norm_num
  rw [hcomb]
  norm_num [maxNormalize, listMaxR, max_def]

/-- Claim C2, witness: `C2_novelty_range_amended` applied to a concrete SSM
and a concrete combined-novelty input with box smoothing of width 3. -/
theorem C2_novelty_range_witness :
    (∀ v ∈ novelty_from_ssm 4 (fun _ _ => 1) 1 (1/100000000), 0 ≤ v ∧ v < 1) ∧
    (∀ v ∈ combined_novelty [[(1 : ℝ)], [-1]] [0, 2] (1/100000000) 3, 0 ≤ v ∧ v ≤ 2) := by
  constructor
  · exact C2_novelty_range_amended.1 4 (fun _ _ => 1) 1 (1/100000000) (by norm_num)
  · exact C2_novelty_range_amended.2 [[(1 : ℝ)], [-1]] [0, 2] (1/100000000) 3
      (by norm_num) (by intro x hx; fin_cases hx <;> norm_num)

/-- Claim C3 (amended): the combined novelty curve equals the element-wise
*sum* of the *max-normalized* frame MFCC novelty (`1 − cos(prev, curr)`,
divided by its maximum plus `EPS`) and the max-normalized onset envelope
over their common length, smoothed with the configured box filter — it is a
sum, not an average, and the MFCC novelty term is itself max-normalized
before being added. -/
theorem C3_combined_novelty_amended (frames : List (List ℝ)) (onset : List ℝ)
    (eps : ℝ) (smooth : ℕ) :
    combined_novelty frames onset eps smooth
      = combined_novelty_amended frames onset eps smooth := rfl

/-- Claim C3, counterexample to the claim as stated: on the MFCC frames
`[1]`, `[1]` and onset envelope `[0, 4]` with `EPS = 1e-8` and no smoothing,
the combined novelty the code computes differs from the element-wise average
of the raw frame MFCC novelty with the max-normalized onset envelope that
the claim describes. -/
theorem C3_combined_novelty_counterexample :
    combined_novelty [[(1 : ℝ)], [1]] [0, 4] (1/100000000) 1
      ≠ combined_novelty_specd [[(1 : ℝ)], [1]] [0, 4] (1/100000000) 1 := by
  have hm : mfccNovelty [[(1 : ℝ)], [1]] (1/100000000)
      = [0, 1 - 1 / (1 + 1/100000000)] := by
    norm_num [mfccNovelty, List.range_succ, dotList, l2norm, sumSq, Real.sqrt_one]
  unfold combined_novelty combined_novelty_specd
  rw [hm]
  norm_num [maxNormalize, listMaxR, max_def]
